import Mathlib

/-!
Verification of the Mandelbrot-set generator (src/FractalPattern/FractalPattern.cpp).

Numeric embedding: the C++ `double` arithmetic is embedded as exact rational
arithmetic over `ℚ`.  The escape test `std::abs(z) < 2.0` is embedded by the
equivalent squared threshold `re*re + im*im < 4` (the spec, section 4.1,
states both forms are acceptable as long as the escape boundary is exactly
radius 2).  The cast `(unsigned char)(double e)` is embedded as truncation
toward zero followed by reduction modulo 256, which is the observed
twos-complement behaviour of the conversion.  `int` counters are embedded
as `ℕ` (all contracts require non-negative counts and positive caps).
-/

/-- One step of the escape iteration: `z * z + c` with `std::complex`
multiplication `(a,b)*(a,b) = (a*a - b*b, a*b + b*a)` (source line 19). -/
def zstep (z c : ℚ × ℚ) : ℚ × ℚ :=
  (z.1 * z.1 - z.2 * z.2 + c.1, z.1 * z.2 + z.2 * z.1 + c.2)

/-- The `while` loop of `mandelbrot` (source lines 18-21): state is the
current `z` and the `iterations` counter; the loop body runs while
`|z| < 2` (squared form) and `iterations < maxIterations`. -/
def mandelbrotGo (c : ℚ × ℚ) (maxIterations : ℕ) (z : ℚ × ℚ) (iterations : ℕ) : ℕ :=
  if h : z.1 * z.1 + z.2 * z.2 < 4 ∧ iterations < maxIterations then
    mandelbrotGo c maxIterations (zstep z c) (iterations + 1)
  else
    iterations
termination_by maxIterations - iterations
decreasing_by simp_wf; omega

/-- `mandelbrot(real, imag, maxIterations)` (source lines 12-24): start at
`z = 0`, `iterations = 0`, run the escape loop, return the counter. -/
def mandelbrot (real imag : ℚ) (maxIterations : ℕ) : ℕ :=
  mandelbrotGo (real, imag) maxIterations (0, 0) 0

/-- Reference escape-time definition, following the wording of the spec (section
4.1): with `c = real + imag*i`, iterate `z := z*z + c` while `|z| < 2`,
counting performed iterations, capped by the remaining fuel.  Written as
structural recursion on the fuel to compare against the counter-based
loop of the source. -/
def refSteps (c : ℚ × ℚ) : ℕ → ℚ × ℚ → ℕ
  | 0, _ => 0
  | fuel + 1, z =>
    if z.1 * z.1 + z.2 * z.2 < 4 then refSteps c fuel (zstep z c) + 1 else 0

/-- Reference contract `evaluate(real, imag, maxIterations)` from the spec:
`z = 0`, full fuel `maxIterations`. -/
def mandelbrotRef (real imag : ℚ) (maxIterations : ℕ) : ℕ :=
  refSteps (real, imag) maxIterations (0, 0)

/-- Truncation toward zero of a rational, the semantics of the C++
floating-to-integer cast. -/
def truncQ (q : ℚ) : ℤ :=
  if q < 0 then ⌈q⌉ else ⌊q⌋

/-- The cast `(unsigned char)(double e)` (source lines 41-43): truncate
toward zero, then reduce modulo 256 (twos-complement wrap of the
out-of-range conversion). -/
def toByte (q : ℚ) : ℕ :=
  ((truncQ q) % 256).toNat

/-- `getColor(iterations, maxIterations, r, g, b)` (source lines 32-50),
returning the output parameters as a triple `(r, g, b)`.  `t` is the
normalized iteration count; the `maxIterations` branch returns black;
otherwise each channel is the cast formula value followed by
`std::min(channel, 255)`. -/
def getColor (iterations maxIterations : ℕ) : ℕ × ℕ × ℕ :=
  let t : ℚ := (iterations : ℚ) / (maxIterations : ℚ)
  if iterations = maxIterations then
    (0, 0, 0)
  else
    let r := toByte (9 * (1 - t) * t * t * t * 255 * 1.5)
    let g := toByte (15 * (1 - t) * (1 - t) * t * t * 255 * 1.5)
    let b := toByte (8.5 * (1 - t) * (1 - t) * (1 - t) * t * 255 * 1.5)
    (min r 255, min g 255, min b 255)

/-- Image width (source line 55). -/
def width : ℕ := 800

/-- Image height (source line 56). -/
def height : ℕ := 800

/-- Iteration cap used by `main` (source line 57). -/
def maxIterationsMain : ℕ := 1000

/-- Left real bound (source line 60). -/
def minReal : ℚ := -2

/-- Right real bound (source line 60). -/
def maxReal : ℚ := 1

/-- Lower imaginary bound (source line 61). -/
def minImag : ℚ := -1.5

/-- Upper imaginary bound (source line 61). -/
def maxImag : ℚ := 1.5

/-- Pixel-to-plane mapping for the real part (source line 72). -/
def pixelReal (x : ℕ) : ℚ :=
  minReal + ((x : ℚ) / (width : ℚ)) * (maxReal - minReal)

/-- Pixel-to-plane mapping for the imaginary part (source line 73). -/
def pixelImag (y : ℕ) : ℚ :=
  minImag + ((y : ℚ) / (height : ℚ)) * (maxImag - minImag)

/-- The colour computed for pixel `(x, y)` (source lines 76-80). -/
def pixelColor (x y : ℕ) : ℕ × ℕ × ℕ :=
  getColor (mandelbrot (pixelReal x) (pixelImag y) maxIterationsMain) maxIterationsMain

/-- Buffer offset of pixel `(x, y)` (source line 83). -/
def bufIndex (x y : ℕ) : ℕ :=
  (y * width + x) * 3

/-- A single in-bounds byte store `image[i] = v` via `operator[]`. -/
def writeByte (img : Array ℕ) (i v : ℕ) : Array ℕ :=
  if h : i < img.size then img.set ⟨i, h⟩ v else img

/-- The three channel stores for pixel `(x, y)` (source lines 84-86). -/
def writePixel (img : Array ℕ) (x y : ℕ) : Array ℕ :=
  writeByte
    (writeByte
      (writeByte img (bufIndex x y) (pixelColor x y).1)
      (bufIndex x y + 1) (pixelColor x y).2.1)
    (bufIndex x y + 2) (pixelColor x y).2.2

/-- The inner `y` loop for a fixed column `x` (source lines 70-87). -/
def renderColumn (img : Array ℕ) (x : ℕ) : Array ℕ :=
  (List.range height).foldl (fun b y => writePixel b x y) img

/-- The freshly constructed image buffer
`std::vector<unsigned char> image(width * height * 3)` (source line 64):
value-initialized, hence all zeros. -/
def initImage : Array ℕ :=
  Array.mkArray (width * height * 3) 0

/-- The buffer after the full raster loop of `main` (source lines 69-88). -/
def renderImage : Array ℕ :=
  (List.range width).foldl renderColumn initImage

/-- The tail of `main` (source lines 96-102): the rendered buffer is handed
to the external encoder; the process exit code is 0 when the encoder
succeeds and 1 when it reports failure.  The encoder is abstracted as a
function from the (read-only) buffer to a success flag. -/
def mainRun (encode : Array ℕ → Bool) : ℕ × Array ℕ :=
  (if encode renderImage then 0 else 1, renderImage)

lemma mandelbrotGo_step (c : ℚ × ℚ) (m : ℕ) (z : ℚ × ℚ) (i : ℕ)
    (h1 : z.1 * z.1 + z.2 * z.2 < 4) (h2 : i < m) :
    mandelbrotGo c m z i = mandelbrotGo c m (zstep z c) (i + 1) := by
  rw [mandelbrotGo]
  exact dif_pos ⟨h1, h2⟩

lemma mandelbrotGo_stop (c : ℚ × ℚ) (m : ℕ) (z : ℚ × ℚ) (i : ℕ)
    (h : ¬(z.1 * z.1 + z.2 * z.2 < 4) ∨ ¬ i < m) :
    mandelbrotGo c m z i = i := by
  rw [mandelbrotGo]
  apply dif_neg
  tauto

lemma mandelbrotGo_eq_refSteps (c : ℚ × ℚ) (m : ℕ) :
    ∀ fuel i z, i ≤ m → m - i = fuel → mandelbrotGo c m z i = i + refSteps c fuel z := by
  intro fuel
  induction fuel with
  | zero =>
    intro i z hi hf
    rw [mandelbrotGo_stop c m z i (Or.inr (by omega))]
    simp [refSteps]
  | succ f ih =>
    intro i z hi hf
    by_cases hz : z.1 * z.1 + z.2 * z.2 < 4
    · rw [mandelbrotGo_step c m z i hz (by omega)]
      rw [ih (i + 1) (zstep z c) (by omega) (by omega)]
      simp [refSteps, hz]
      omega
    · rw [mandelbrotGo_stop c m z i (Or.inl hz)]
      simp [refSteps, hz]

lemma mandelbrot_eq_refSteps (real imag : ℚ) (m : ℕ) :
    mandelbrot real imag m = refSteps (real, imag) m (0, 0) := by
  unfold mandelbrot
  rw [mandelbrotGo_eq_refSteps (real, imag) m m 0 (0, 0) (by omega) (by omega)]
  omega

lemma refSteps_le (c : ℚ × ℚ) : ∀ fuel z, refSteps c fuel z ≤ fuel := by
  intro fuel
  induction fuel with
  | zero => intro z; simp [refSteps]
  | succ f ih =>
    intro z
    by_cases hz : z.1 * z.1 + z.2 * z.2 < 4 <;> simp [refSteps, hz]
    exact ih (zstep z c)

/-- C3: `mandelbrot` agrees with the reference escape-time definition of the
spec, and its return value lies in `[0, maxIterations]`. -/
theorem mandelbrot_matches_reference (real imag : ℚ) (maxIterations : ℕ)
    (h : 0 < maxIterations) :
    mandelbrot real imag maxIterations = mandelbrotRef real imag maxIterations ∧
    mandelbrot real imag maxIterations ≤ maxIterations := by
  constructor
  · rw [mandelbrot_eq_refSteps]
    rfl
  · rw [mandelbrot_eq_refSteps]
    exact refSteps_le (real, imag) maxIterations (0, 0)

/-- Witness for C3 at `real = 2, imag = 0, maxIterations = 1`. -/
theorem mandelbrot_matches_reference_witness :
    (0 : ℕ) < 1 ∧ (mandelbrot 2 0 1 = mandelbrotRef 2 0 1 ∧ mandelbrot 2 0 1 ≤ 1) :=
  ⟨by decide, mandelbrot_matches_reference 2 0 1 (by decide)⟩

lemma refSteps_origin : ∀ fuel, refSteps ((0 : ℚ), (0 : ℚ)) fuel (0, 0) = fuel := by
  intro fuel
  induction fuel with
  | zero => simp [refSteps]
  | succ f ih =>
    have hz : zstep ((0 : ℚ), (0 : ℚ)) ((0 : ℚ), (0 : ℚ)) = ((0 : ℚ), (0 : ℚ)) := by
      simp [zstep]
    simp only [refSteps, hz, ih]
    norm_num

/-- C5: the origin never escapes, so `mandelbrot 0 0` returns the cap. -/
theorem mandelbrot_origin (maxIterations : ℕ) (h : 0 < maxIterations) :
    mandelbrot 0 0 maxIterations = maxIterations := by
  rw [mandelbrot_eq_refSteps]
  exact refSteps_origin maxIterations

/-- Witness for C5 at `maxIterations = 3`. -/
theorem mandelbrot_origin_witness : (0 : ℕ) < 3 ∧ mandelbrot 0 0 3 = 3 :=
  ⟨by decide, mandelbrot_origin 3 (by decide)⟩

/-- C6: every point with `real > 1` escapes within 1000 iterations, and the
point `(2, 0)` escapes after exactly one step for any positive cap. -/
theorem mandelbrot_right_escape :
    (∀ real imag : ℚ, 1 < real → mandelbrot real imag 1000 < 1000) ∧
    (∀ maxIterations : ℕ, 1 ≤ maxIterations → mandelbrot 2 0 maxIterations = 1) := by
  constructor
  · intro re im hre
    have hstep0 : mandelbrot re im 1000 = mandelbrotGo (re, im) 1000 (re, im) 1 := by
      unfold mandelbrot
      rw [mandelbrotGo_step (re, im) 1000 (0, 0) 0 (by norm_num) (by norm_num)]
      norm_num [zstep]
    rw [hstep0]
    by_cases hc : re * re + im * im < 4
    · rw [mandelbrotGo_step (re, im) 1000 (re, im) 1 hc (by norm_num)]
      rw [mandelbrotGo_stop]
      · norm_num
      · left
        push_neg
        have hA : (1 : ℚ) < re * re + im * im := by nlinarith
        have hB : (4 : ℚ) < (re + 1) * (re + 1) + im * im := by nlinarith
        have key : (zstep (re, im) (re, im)).1 * (zstep (re, im) (re, im)).1 +
            (zstep (re, im) (re, im)).2 * (zstep (re, im) (re, im)).2 =
            (re * re + im * im) * ((re + 1) * (re + 1) + im * im) := by
          simp [zstep]
          ring
        rw [key]
        nlinarith [mul_pos (sub_pos.mpr hA) (sub_pos.mpr hB)]
    · rw [mandelbrotGo_stop (re, im) 1000 (re, im) 1 (Or.inl hc)]
      norm_num
  · intro m hm
    unfold mandelbrot
    rw [mandelbrotGo_step ((2 : ℚ), (0 : ℚ)) m (0, 0) 0 (by norm_num) (by omega)]
    rw [mandelbrotGo_stop]
    left
    push_neg
    norm_num [zstep]

/-- Witness for C6 at `(2, 0)` with caps 1000 and 5. -/
theorem mandelbrot_right_escape_witness :
    mandelbrot 2 0 1000 < 1000 ∧ mandelbrot 2 0 5 = 1 :=
  ⟨mandelbrot_right_escape.1 2 0 (by norm_num),
   mandelbrot_right_escape.2 5 (by norm_num)⟩

lemma toByte_le (q : ℚ) : toByte q ≤ 255 := by
  unfold toByte
  have h1 : (0 : ℤ) ≤ truncQ q % 256 := Int.emod_nonneg _ (by norm_num)
  have h2 : truncQ q % 256 < 256 := Int.emod_lt_of_pos _ (by norm_num)
  omega

lemma min_toByte (q : ℚ) : min (toByte q) 255 = toByte q :=
  min_eq_left (toByte_le q)

/-- C4: reaching the iteration cap is coloured black. -/
theorem getColor_black (maxIterations : ℕ) (h : 0 < maxIterations) :
    getColor maxIterations maxIterations = (0, 0, 0) := by
  unfold getColor
  simp

/-- Witness for C4 at `maxIterations = 7`. -/
theorem getColor_black_witness : (0 : ℕ) < 7 ∧ getColor 7 7 = (0, 0, 0) :=
  ⟨by decide, getColor_black 7 (by decide)⟩

/-- C9: for escaped points the `std::min` clamp is a no-op; each channel is
the truncated formula value reduced modulo 256 by the cast, so out-of-range
values wrap rather than saturate: at `t = 3/4` the red formula value
`363.076...` is stored as `107`. -/
theorem getColor_cast_wraps :
    (∀ iterations maxIterations : ℕ, iterations < maxIterations →
      getColor iterations maxIterations =
        (((truncQ (9 * (1 - (iterations : ℚ) / (maxIterations : ℚ)) *
            ((iterations : ℚ) / (maxIterations : ℚ)) *
            ((iterations : ℚ) / (maxIterations : ℚ)) *
            ((iterations : ℚ) / (maxIterations : ℚ)) * 255 * 1.5)) % 256).toNat,
         ((truncQ (15 * (1 - (iterations : ℚ) / (maxIterations : ℚ)) *
            (1 - (iterations : ℚ) / (maxIterations : ℚ)) *
            ((iterations : ℚ) / (maxIterations : ℚ)) *
            ((iterations : ℚ) / (maxIterations : ℚ)) * 255 * 1.5)) % 256).toNat,
         ((truncQ (8.5 * (1 - (iterations : ℚ) / (maxIterations : ℚ)) *
            (1 - (iterations : ℚ) / (maxIterations : ℚ)) *
            (1 - (iterations : ℚ) / (maxIterations : ℚ)) *
            ((iterations : ℚ) / (maxIterations : ℚ)) * 255 * 1.5)) % 256).toNat)) ∧
    getColor 3 4 = (107, 201, 38) := by
  constructor
  · intro iterations maxIterations h
    have hne : iterations ≠ maxIterations := Nat.ne_of_lt h
    simp only [getColor, if_neg hne, min_toByte]
    rfl
  · norm_num [getColor, toByte, truncQ]
    decide

/-- Witness for C9 at `iterations = 3, maxIterations = 4`. -/
theorem getColor_cast_wraps_witness :
    getColor 3 4 =
      (((truncQ (9 * (1 - (3 : ℚ) / (4 : ℚ)) * ((3 : ℚ) / (4 : ℚ)) *
          ((3 : ℚ) / (4 : ℚ)) * ((3 : ℚ) / (4 : ℚ)) * 255 * 1.5)) % 256).toNat,
       ((truncQ (15 * (1 - (3 : ℚ) / (4 : ℚ)) * (1 - (3 : ℚ) / (4 : ℚ)) *
          ((3 : ℚ) / (4 : ℚ)) * ((3 : ℚ) / (4 : ℚ)) * 255 * 1.5)) % 256).toNat,
       ((truncQ (8.5 * (1 - (3 : ℚ) / (4 : ℚ)) * (1 - (3 : ℚ) / (4 : ℚ)) *
          (1 - (3 : ℚ) / (4 : ℚ)) * ((3 : ℚ) / (4 : ℚ)) * 255 * 1.5)) % 256).toNat) := by
  have h := getColor_cast_wraps.1 3 4 (by decide)
  norm_num at h ⊢
  exact h

/-- C1 counterexample: at `iterations = 3, maxIterations = 4` the red
formula value truncates to 363; the claimed truncate-then-clamp semantics
would store 255, but `getColor` stores `363 % 256 = 107` because the cast
to `unsigned char` happens before the `std::min` clamp. -/
theorem getColor_clamp_counterexample :
    getColor 3 4 = (107, 201, 38) ∧
    min ((truncQ (9 * (1 - (3 : ℚ) / 4) * ((3 : ℚ) / 4) * ((3 : ℚ) / 4) *
      ((3 : ℚ) / 4) * 255 * 1.5)).toNat) 255 = 255 := by
  constructor
  · norm_num [getColor, toByte, truncQ]
    decide
  · norm_num [truncQ]

lemma size_writeByte (img : Array ℕ) (i v : ℕ) :
    (writeByte img i v).size = img.size := by
  unfold writeByte
  split <;> simp [Array.size_set]

lemma getD_writeByte_eq (img : Array ℕ) (i v : ℕ) (h : i < img.size) :
    (writeByte img i v).getD i 0 = v := by
  unfold writeByte
  rw [dif_pos h]
  unfold Array.getD
  have h2 : i < (img.set ⟨i, h⟩ v).size := by rw [Array.size_set]; exact h
  rw [dif_pos h2]
  exact Array.getElem_set_eq img ⟨i, h⟩ v rfl h2

lemma getD_writeByte_ne (img : Array ℕ) (i v j : ℕ) (hne : i ≠ j) :
    (writeByte img i v).getD j 0 = img.getD j 0 := by
  unfold writeByte
  split
  · rename_i h
    unfold Array.getD
    by_cases hj : j < img.size
    · have h2 : j < (img.set ⟨i, h⟩ v).size := by rw [Array.size_set]; exact hj
      rw [dif_pos h2, dif_pos hj]
      exact Array.getElem_set_ne img ⟨i, h⟩ v h2 hne
    · have h2 : ¬ j < (img.set ⟨i, h⟩ v).size := by rw [Array.size_set]; exact hj
      rw [dif_neg h2, dif_neg hj]
  · rfl

lemma size_writePixel (img : Array ℕ) (x y : ℕ) :
    (writePixel img x y).size = img.size := by
  unfold writePixel
  rw [size_writeByte, size_writeByte, size_writeByte]

lemma getD_writePixel_ne (img : Array ℕ) (x y j : ℕ)
    (hj : ∀ k, k < 3 → j ≠ bufIndex x y + k) :
    (writePixel img x y).getD j 0 = img.getD j 0 := by
  unfold writePixel
  rw [getD_writeByte_ne _ _ _ _ (Ne.symm (hj 2 (by norm_num)))]
  rw [getD_writeByte_ne _ _ _ _ (Ne.symm (hj 1 (by norm_num)))]
  exact getD_writeByte_ne _ _ _ _ (Ne.symm (hj 0 (by norm_num)))

lemma getD_writePixel_self (img : Array ℕ) (x y : ℕ)
    (h : bufIndex x y + 2 < img.size) :
    (writePixel img x y).getD (bufIndex x y) 0 = (pixelColor x y).1 ∧
    (writePixel img x y).getD (bufIndex x y + 1) 0 = (pixelColor x y).2.1 ∧
    (writePixel img x y).getD (bufIndex x y + 2) 0 = (pixelColor x y).2.2 := by
  unfold writePixel
  refine ⟨?_, ?_, ?_⟩
  · rw [getD_writeByte_ne _ _ _ _ (by omega), getD_writeByte_ne _ _ _ _ (by omega)]
    exact getD_writeByte_eq _ _ _ (by omega)
  · rw [getD_writeByte_ne _ _ _ _ (by omega)]
    exact getD_writeByte_eq _ _ _ (by rw [size_writeByte]; omega)
  · exact getD_writeByte_eq _ _ _ (by rw [size_writeByte, size_writeByte]; omega)

lemma size_foldl_writePixel (x : ℕ) :
    ∀ (ys : List ℕ) (img : Array ℕ),
      (ys.foldl (fun b y => writePixel b x y) img).size = img.size := by
  intro ys
  induction ys with
  | nil => intro img; rfl
  | cons a as ih =>
    intro img
    rw [List.foldl_cons, ih, size_writePixel]

lemma foldl_writePixel_preserve (x : ℕ) :
    ∀ (ys : List ℕ) (img : Array ℕ) (j : ℕ),
      (∀ y ∈ ys, ∀ k, k < 3 → j ≠ bufIndex x y + k) →
      (ys.foldl (fun b y => writePixel b x y) img).getD j 0 = img.getD j 0 := by
  intro ys
  induction ys with
  | nil => intro img j _; rfl
  | cons a as ih =>
    intro img j hj
    rw [List.foldl_cons]
    rw [ih (writePixel img x a) j (fun y hy k hk => hj y (List.mem_cons_of_mem a hy) k hk)]
    exact getD_writePixel_ne img x a j (hj a (List.mem_cons_self a as))

lemma foldl_writePixel_value (x : ℕ) :
    ∀ (ys : List ℕ) (img : Array ℕ) (y0 : ℕ),
      y0 ∈ ys → bufIndex x y0 + 2 < img.size →
      ((ys.foldl (fun b y => writePixel b x y) img).getD (bufIndex x y0) 0 =
        (pixelColor x y0).1 ∧
       (ys.foldl (fun b y => writePixel b x y) img).getD (bufIndex x y0 + 1) 0 =
        (pixelColor x y0).2.1 ∧
       (ys.foldl (fun b y => writePixel b x y) img).getD (bufIndex x y0 + 2) 0 =
        (pixelColor x y0).2.2) := by
  intro ys
  induction ys with
  | nil => intro img y0 hmem; exact absurd hmem (List.not_mem_nil y0)
  | cons a as ih =>
    intro img y0 hmem hsize
    rw [List.foldl_cons]
    by_cases has : y0 ∈ as
    · exact ih (writePixel img x a) y0 has (by rw [size_writePixel]; exact hsize)
    · have hay : a = y0 := by
        rcases List.mem_cons.mp hmem with h1 | h2
        · exact h1.symm
        · exact absurd h2 has
      subst hay
      have hpres : ∀ k0, k0 < 3 →
          (as.foldl (fun b y => writePixel b x y) (writePixel img x a)).getD
            (bufIndex x a + k0) 0 = (writePixel img x a).getD (bufIndex x a + k0) 0 := by
        intro k0 hk0
        apply foldl_writePixel_preserve
        intro y hy k hk
        have hya : y ≠ a := fun he => has (he ▸ hy)
        simp only [bufIndex, width]
        omega
      have hself := getD_writePixel_self img x a hsize
      refine ⟨?_, ?_, ?_⟩
      · have h0 := hpres 0 (by norm_num)
        rw [Nat.add_zero] at h0
        rw [h0]
        exact hself.1
      · rw [hpres 1 (by norm_num)]
        exact hself.2.1
      · rw [hpres 2 (by norm_num)]
        exact hself.2.2

lemma size_renderColumn (img : Array ℕ) (x : ℕ) :
    (renderColumn img x).size = img.size :=
  size_foldl_writePixel x (List.range height) img

lemma renderColumn_preserve (img : Array ℕ) (x j : ℕ)
    (hj : ∀ y k, y < height → k < 3 → j ≠ bufIndex x y + k) :
    (renderColumn img x).getD j 0 = img.getD j 0 :=
  foldl_writePixel_preserve x (List.range height) img j
    (fun y hy k hk => hj y k (List.mem_range.mp hy) hk)

lemma renderColumn_value (img : Array ℕ) (x y0 : ℕ) (hy : y0 < height)
    (hsz : bufIndex x y0 + 2 < img.size) :
    ((renderColumn img x).getD (bufIndex x y0) 0 = (pixelColor x y0).1 ∧
     (renderColumn img x).getD (bufIndex x y0 + 1) 0 = (pixelColor x y0).2.1 ∧
     (renderColumn img x).getD (bufIndex x y0 + 2) 0 = (pixelColor x y0).2.2) :=
  foldl_writePixel_value x (List.range height) img y0 (List.mem_range.mpr hy) hsz

lemma size_foldl_renderColumn :
    ∀ (xs : List ℕ) (img : Array ℕ),
      (xs.foldl renderColumn img).size = img.size := by
  intro xs
  induction xs with
  | nil => intro img; rfl
  | cons a as ih =>
    intro img
    rw [List.foldl_cons, ih, size_renderColumn]

lemma foldl_renderColumn_preserve :
    ∀ (xs : List ℕ) (img : Array ℕ) (j : ℕ),
      (∀ a ∈ xs, ∀ y k, y < height → k < 3 → j ≠ bufIndex a y + k) →
      (xs.foldl renderColumn img).getD j 0 = img.getD j 0 := by
  intro xs
  induction xs with
  | nil => intro img j _; rfl
  | cons a as ih =>
    intro img j hj
    rw [List.foldl_cons]
    rw [ih (renderColumn img a) j (fun b hb => hj b (List.mem_cons_of_mem a hb))]
    exact renderColumn_preserve img a j (hj a (List.mem_cons_self a as))

lemma foldl_renderColumn_value :
    ∀ (xs : List ℕ) (img : Array ℕ) (x0 y0 : ℕ),
      x0 ∈ xs → (∀ a ∈ xs, a < width) → y0 < height → bufIndex x0 y0 + 2 < img.size →
      ((xs.foldl renderColumn img).getD (bufIndex x0 y0) 0 = (pixelColor x0 y0).1 ∧
       (xs.foldl renderColumn img).getD (bufIndex x0 y0 + 1) 0 = (pixelColor x0 y0).2.1 ∧
       (xs.foldl renderColumn img).getD (bufIndex x0 y0 + 2) 0 = (pixelColor x0 y0).2.2) := by
  intro xs
  induction xs with
  | nil => intro img x0 y0 hmem; exact absurd hmem (List.not_mem_nil x0)
  | cons a as ih =>
    intro img x0 y0 hmem hbound hy hsize
    rw [List.foldl_cons]
    by_cases has : x0 ∈ as
    · exact ih (renderColumn img a) x0 y0 has
        (fun b hb => hbound b (List.mem_cons_of_mem a hb)) hy
        (by rw [size_renderColumn]; exact hsize)
    · have hax : a = x0 := by
        rcases List.mem_cons.mp hmem with h1 | h2
        · exact h1.symm
        · exact absurd h2 has
      subst hax
      have haw : a < width := hbound a (List.mem_cons_self a as)
      have hval := renderColumn_value img a y0 hy hsize
      have hdisj : ∀ kk : ℕ, kk < 3 → ∀ b ∈ as, ∀ y k, y < height → k < 3 →
          bufIndex a y0 + kk ≠ bufIndex b y + k := by
        intro kk hkk b hb y k hy2 hk
        have hbw : b < width := hbound b (List.mem_cons_of_mem a hb)
        have hba : b ≠ a := fun he => has (he ▸ hb)
        simp only [width] at haw hbw
        simp only [bufIndex, width]
        omega
      refine ⟨?_, ?_, ?_⟩
      · have hp := foldl_renderColumn_preserve as (renderColumn img a) (bufIndex a y0)
          (by
            intro b hb y k hy2 hk
            have h3 := hdisj 0 (by norm_num) b hb y k hy2 hk
            rw [Nat.add_zero] at h3
            exact h3)
        rw [hp]
        exact hval.1
      · rw [foldl_renderColumn_preserve as (renderColumn img a) (bufIndex a y0 + 1)
          (hdisj 1 (by norm_num))]
        exact hval.2.1
      · rw [foldl_renderColumn_preserve as (renderColumn img a) (bufIndex a y0 + 2)
          (hdisj 2 (by norm_num))]
        exact hval.2.2

lemma initImage_size : initImage.size = 1920000 := by
  simp [initImage, width, height]

lemma renderImage_size_eq : renderImage.size = 1920000 := by
  unfold renderImage
  rw [size_foldl_renderColumn, initImage_size]

lemma renderImage_getD (x y : ℕ) (hx : x < width) (hy : y < height) :
    (renderImage.getD (bufIndex x y) 0 = (pixelColor x y).1 ∧
     renderImage.getD (bufIndex x y + 1) 0 = (pixelColor x y).2.1 ∧
     renderImage.getD (bufIndex x y + 2) 0 = (pixelColor x y).2.2) := by
  unfold renderImage
  apply foldl_renderColumn_value (List.range width) initImage x y
    (List.mem_range.mpr hx) (fun a ha => List.mem_range.mp ha) hy
  rw [initImage_size]
  simp only [bufIndex, width] at hx ⊢
  simp only [height] at hy
  omega

/-- C7: the pixel buffer has length `width * height * 3 = 1,920,000` bytes
at creation and still after the full raster loop; no write changes it. -/
theorem buffer_length_invariant :
    initImage.size = width * height * 3 ∧
    renderImage.size = width * height * 3 ∧
    width * height * 3 = 1920000 := by
  refine ⟨?_, ?_, ?_⟩
  · rw [initImage_size]
    simp [width, height]
  · rw [renderImage_size_eq]
    simp [width, height]
  · simp [width, height]

/-- C10: every raster-loop access is in bounds: for `x, y < 800` all three
byte offsets of pixel `(x, y)` are strictly below the buffer length
1,920,000. -/
theorem raster_access_in_bounds (x y : ℕ) (hx : x < 800) (hy : y < 800) :
    bufIndex x y < renderImage.size ∧
    bufIndex x y + 1 < renderImage.size ∧
    bufIndex x y + 2 < renderImage.size ∧
    renderImage.size = 1920000 := by
  rw [renderImage_size_eq]
  unfold bufIndex width
  omega

/-- Witness for C10 at the last pixel `(799, 799)`. -/
theorem raster_access_in_bounds_witness :
    bufIndex 799 799 < renderImage.size ∧
    bufIndex 799 799 + 1 < renderImage.size ∧
    bufIndex 799 799 + 2 < renderImage.size ∧
    renderImage.size = 1920000 :=
  raster_access_in_bounds 799 799 (by norm_num) (by norm_num)

lemma pixelReal_eq (x : ℕ) : pixelReal x = -2 + ((x : ℚ) / 800) * 3 := by
  unfold pixelReal minReal maxReal width
  norm_num

lemma pixelImag_eq (y : ℕ) : pixelImag y = -1.5 + ((y : ℚ) / 800) * 3 := by
  unfold pixelImag minImag maxImag height
  norm_num

/-- C2: after the raster loop, the three bytes at offset `(y*800 + x)*3`
are exactly `getColor (mandelbrot (-2 + (x/800)*3) (-1.5 + (y/800)*3) 1000) 1000`;
the buffer is a pure function of the fixed constants, so two runs yield
byte-identical buffers. -/
theorem renderImage_pixel (x y : ℕ) (hx : x < 800) (hy : y < 800) :
    (renderImage.getD ((y * 800 + x) * 3) 0,
     renderImage.getD ((y * 800 + x) * 3 + 1) 0,
     renderImage.getD ((y * 800 + x) * 3 + 2) 0) =
    getColor (mandelbrot (-2 + ((x : ℚ) / 800) * 3) (-1.5 + ((y : ℚ) / 800) * 3) 1000)
      1000 := by
  have h := renderImage_getD x y (by simpa [width] using hx) (by simpa [height] using hy)
  have hidx : bufIndex x y = (y * 800 + x) * 3 := by simp [bufIndex, width]
  rw [hidx] at h
  rw [h.1, h.2.1, h.2.2]
  show pixelColor x y = _
  unfold pixelColor maxIterationsMain
  rw [pixelReal_eq, pixelImag_eq]

/-- Witness for C2 at pixel `(0, 0)`. -/
theorem renderImage_pixel_witness :
    (renderImage.getD ((0 * 800 + 0) * 3) 0,
     renderImage.getD ((0 * 800 + 0) * 3 + 1) 0,
     renderImage.getD ((0 * 800 + 0) * 3 + 2) 0) =
    getColor
      (mandelbrot (-2 + (((0 : ℕ) : ℚ) / 800) * 3) (-1.5 + (((0 : ℕ) : ℚ) / 800) * 3) 1000)
      1000 :=
  renderImage_pixel 0 0 (by norm_num) (by norm_num)

/-- C8: the process exit code of `main` is 0 exactly when the encoder call
succeeds and 1 exactly when it reports failure; these are the only two
outcomes, so encoder failure is the only unsuccessful path. -/
theorem mainRun_exit_code :
    ∀ encode : Array ℕ → Bool,
      ((mainRun encode).1 = 0 ↔ encode renderImage = true) ∧
      ((mainRun encode).1 = 1 ↔ encode renderImage = false) ∧
      ((mainRun encode).1 = 0 ∨ (mainRun encode).1 = 1) := by
  intro encode
  unfold mainRun
  cases h : encode renderImage <;> simp [h]
